import Mathlib

/-!
Verification of the query facade of the parquet-common repository
(`search/parquet_queriable.go`): the `parquetQueryable` / `parquetQuerier` /
`ParquetBlock` layer that fans queries out across blocks and row groups,
aggregates label lists, and merges per-block series sets.

The in-repository collaborators that live outside the given sources
(`MatchersToConstraint`, `Initialize`, `Filter`, the `Materializer` entry
points, `util.MergeUnsortedSlices`, `convert.NewMergeChunkSeriesSet`) are
modelled from the spec, each marked as such in its doc comment.  External
prometheus collaborators (`labels.Compare`,
`storage.NewConcatenatingChunkSeriesMerger`) are modelled from their
documented behaviour.
-/

namespace ParquetCommon

/-- Error values propagated by the engine; Go `error` values are modelled as
strings. -/
abbrev Err := String

/-- A label set as prometheus `labels.Labels`: a list of (name, value) pairs,
sorted by name with unique names in well-formed inputs. -/
abbrev Lbls := List (String × String)

/-- Three-way comparison of characters by code point, the base case of
lexicographic string comparison. -/
def charCompare (a b : Char) : Ordering :=
  if a < b then .lt else if b < a then .gt else .eq

/-- Lexicographic three-way comparison of lists from an element comparator:
empty compares below nonempty, otherwise head first, then tail. -/
def lexCompare (cmp : α → α → Ordering) : List α → List α → Ordering
  | [], [] => .eq
  | [], _ :: _ => .lt
  | _ :: _, [] => .gt
  | a :: as, b :: bs => (cmp a b).then (lexCompare cmp as bs)

/-- Lexicographic comparison of strings, the model of Go string comparison
(byte order of UTF-8 agrees with code-point order on valid strings). -/
def strCompare (a b : String) : Ordering := lexCompare charCompare a.data b.data

/-- Comparison of one (name, value) label pair: by name first, then value. -/
def pairCompare (p q : String × String) : Ordering :=
  (strCompare p.1 q.1).then (strCompare p.2 q.2)

/-- Model of prometheus `labels.Compare`: lexicographic comparison of two
label lists, pairwise by name then value, a strict prefix comparing smaller.
The Go function returns an `int`; only its sign is ever consumed, so an
`Ordering` stands for the sign. -/
def lblCompare (a b : Lbls) : Ordering := lexCompare pairCompare a b

/-- Non-strict order on label sets: `labels.Compare a b <= 0`. -/
def lblLe (a b : Lbls) : Prop := lblCompare a b ≠ .gt

instance : DecidableRel lblLe := fun _ _ => instDecidableNot

/-- Non-strict order on strings: Go string `a <= b`. -/
def strLe (a b : String) : Prop := strCompare a b ≠ .gt

instance : DecidableRel strLe := fun _ _ => instDecidableNot

/-- Strict order on strings: Go string `a < b`. -/
def strLt (a b : String) : Prop := strCompare a b = .lt

instance : DecidableRel strLt := fun a b => decidable_of_iff (strCompare a b = .lt) Iff.rfl

/-! ### Data model -/

/-- A sample chunk: its time bounds plus an abstract payload identifier, just
enough to tell two chunks apart. -/
structure Chunk where
  mint : Int
  maxt : Int
  data : Nat
deriving DecidableEq, Repr

/-- storage.ChunkSeries: a label set together with the ordered chunks of one
series. -/
structure ChunkSeries where
  lset : Lbls
  chunks : List Chunk
deriving DecidableEq, Repr

/-- labels.MatchType: the four matcher kinds. -/
inductive MatchKind
  | equal
  | notEqual
  | regexMatch
  | regexNotMatch
deriving DecidableEq, Repr

/-- labels.Matcher: a caller-supplied label filter condition.  Whether a regex
pattern is structurally valid is recorded as a field, standing in for the
external regex parser's verdict on the pattern text. -/
structure Matcher where
  name : String
  kind : MatchKind
  value : String
  patternValid : Bool
deriving DecidableEq, Repr

/-- Engine-internal predicate over one label column, tagged by kind. -/
structure Constraint where
  name : String
  kind : MatchKind
  value : String
deriving DecidableEq, Repr

/-- Modelled from the spec: `MatchersToConstraint` (search package, outside
the given sources) maps each matcher to exactly one constraint and fails with
a translation error exactly when a regex pattern is structurally invalid. -/
def MatchersToConstraint : List Matcher → Except Err (List Constraint)
  | [] => .ok []
  | m :: rest =>
    match m.kind, m.patternValid with
    | .regexMatch, false => .error "invalid pattern"
    | .regexNotMatch, false => .error "invalid pattern"
    | _, _ =>
      match MatchersToConstraint rest with
      | .error e => .error e
      | .ok cs => .ok (⟨m.name, m.kind, m.value⟩ :: cs)

/-- Modelled from the spec: a block's columnar schema, abstracted to whether
it can be read (constraint binding fails only if the schema itself cannot be
read; a missing column never errors). -/
structure Schema where
  readErr : Option Err

/-- Modelled from the spec: `Initialize` binds the constraints against the
schema; a constraint whose column is absent becomes a static truth value,
never an error, so the only failure is an unreadable schema. -/
def Initialize (s : Schema) (_cs : List Constraint) : Except Err Unit :=
  match s.readErr with
  | some e => .error e
  | none => .ok ()

/-- Modelled from the spec: a row group carrying its filtering behaviour.
The Row-Group Filter turns a bound constraint set into the exact candidate
row set for this group, or fails with a filter error; that outcome is
abstracted as a function of the constraint list. -/
structure RowGroup where
  filterRes : List Constraint → Except Err (List Nat)

/-- Filter(group, cs...): run the row-group filter. -/
def Filter (g : RowGroup) (cs : List Constraint) : Except Err (List Nat) :=
  g.filterRes cs

/-- Modelled from the spec: the Materializer's three entry points, abstracted
as functions from (row-group index, time window, candidate rows) to their
results, each able to fail (decode error, filter error, cancellation). -/
structure Materializer where
  materialize : Nat → Int → Int → List Nat → Except Err (List ChunkSeries)
  materializeLabelNames : Nat → List Nat → Except Err (List String)
  materializeLabelValues : String → Nat → List Nat → Except Err (List String)

/-- parquet.File, reduced to what the queryable layer reads from it: its
schema and its row groups. -/
structure ParquetFile where
  schema : Schema
  rowGroups : List RowGroup

/-- ParquetBlock: the labels file, the chunks file and the block's
materializer. -/
structure ParquetBlock where
  lf : ParquetFile
  cf : ParquetFile
  m : Materializer

/-! ### Sorting by labels -/

/-- byLabels.Less from the source: `labels.Compare(b[i].Labels(), b[j].Labels()) < 0`. -/
def byLabelsLess (a b : ChunkSeries) : Prop := lblCompare a.lset b.lset = .lt

/-- Non-strict companion of `byLabelsLess`, the order `sort.Sort` establishes:
adjacent elements `a, b` of the sorted slice satisfy `!Less(b, a)`, which by
the comparator laws is `labels.Compare(a, b) <= 0`. -/
def lblLeCS (a b : ChunkSeries) : Prop := lblLe a.lset b.lset

instance : DecidableRel lblLeCS := fun a b => inferInstanceAs (Decidable (lblLe a.lset b.lset))

/-- sort.Sort(byLabels(results)): an in-place comparison sort, modelled as
insertion sort by the non-strict order induced by byLabels.Less
(`sort.Sort` promises a Less-respecting reordering, not one algorithm). -/
def sortByLabels (l : List ChunkSeries) : List ChunkSeries := l.insertionSort lblLeCS

/-! ### Per-block query operations (ParquetBlock.query / labelNames / labelValues) -/

/-- Loop body of ParquetBlock.query: for each row group in order, filter then
materialize, appending the series; the first error aborts. -/
def queryGroups (m : Materializer) (cs : List Constraint) (mint maxt : Int) :
    Nat → List RowGroup → Except Err (List ChunkSeries)
  | _, [] => .ok []
  | i, g :: gs =>
    match Filter g cs with
    | .error e => .error e
    | .ok rr =>
      match m.materialize i mint maxt rr with
      | .error e => .error e
      | .ok series =>
        match queryGroups m cs mint maxt (i + 1) gs with
        | .error e => .error e
        | .ok rest => .ok (series ++ rest)

/-- ParquetBlock.query: build constraints, bind them to the labels file's
schema, scan every row group, and sort the collected series when `sorted`. -/
def ParquetBlock.query (b : ParquetBlock) (sorted : Bool) (mint maxt : Int)
    (matchers : List Matcher) : Except Err (List ChunkSeries) :=
  match MatchersToConstraint matchers with
  | .error e => .error e
  | .ok cs =>
    match Initialize b.lf.schema cs with
    | .error e => .error e
    | .ok _ =>
      match queryGroups b.m cs mint maxt 0 b.lf.rowGroups with
      | .error e => .error e
      | .ok results => .ok (if sorted then sortByLabels results else results)

/-- Loop body of ParquetBlock.labelNames / labelValues: one string list per
row group, first error aborts. -/
def labelNamesGroups (m : Materializer) (cs : List Constraint) :
    Nat → List RowGroup → Except Err (List (List String))
  | _, [] => .ok []
  | i, g :: gs =>
    match Filter g cs with
    | .error e => .error e
    | .ok rr =>
      match m.materializeLabelNames i rr with
      | .error e => .error e
      | .ok series =>
        match labelNamesGroups m cs (i + 1) gs with
        | .error e => .error e
        | .ok rest => .ok (series :: rest)

def labelValuesGroups (m : Materializer) (name : String) (cs : List Constraint) :
    Nat → List RowGroup → Except Err (List (List String))
  | _, [] => .ok []
  | i, g :: gs =>
    match Filter g cs with
    | .error e => .error e
    | .ok rr =>
      match m.materializeLabelValues name i rr with
      | .error e => .error e
      | .ok rest0 =>
        match labelValuesGroups m name cs (i + 1) gs with
        | .error e => .error e
        | .ok rest => .ok (rest0 :: rest)

/-- ParquetBlock.labelNames: constraints, bind, then one distinct-name list
per row group. -/
def ParquetBlock.labelNames (b : ParquetBlock) (matchers : List Matcher) :
    Except Err (List (List String)) :=
  match MatchersToConstraint matchers with
  | .error e => .error e
  | .ok cs =>
    match Initialize b.lf.schema cs with
    | .error e => .error e
    | .ok _ => labelNamesGroups b.m cs 0 b.lf.rowGroups

/-- ParquetBlock.labelValues: constraints, bind, then one distinct-value list
per row group for the named label. -/
def ParquetBlock.labelValues (b : ParquetBlock) (name : String)
    (matchers : List Matcher) : Except Err (List (List String)) :=
  match MatchersToConstraint matchers with
  | .error e => .error e
  | .ok cs =>
    match Initialize b.lf.schema cs with
    | .error e => .error e
    | .ok _ => labelValuesGroups b.m name cs 0 b.lf.rowGroups

/-! ### Cross-block merge of chunk-series sets -/

/-- Total number of series held in a list of per-block series sets. -/
def totalLen (sets : List (List ChunkSeries)) : Nat := (sets.map List.length).sum

/-- Label sets of the current head series of every nonempty set. -/
def headLsets (sets : List (List ChunkSeries)) : List Lbls :=
  sets.filterMap (fun s => s.head?.map ChunkSeries.lset)

/-- Least label set among `m` and `ys` under `labels.Compare`. -/
def foldlMin (m : Lbls) : List Lbls → Lbls
  | [] => m
  | y :: ys => foldlMin (if lblCompare y m = .lt then y else m) ys

/-- Least element of a list of label sets, if any. -/
def listMinLbl : List Lbls → Option Lbls
  | [] => none
  | x :: xs => some (foldlMin x xs)

/-- Head series whose label set equals `m`, taken from every set in set
order: the series that merge in one step of the k-way merge. -/
def popTaken (m : Lbls) : List (List ChunkSeries) → List ChunkSeries
  | [] => []
  | [] :: rest => popTaken m rest
  | (x :: _xs) :: rest => if x.lset = m then x :: popTaken m rest else popTaken m rest

/-- What remains of every set after one step of the k-way merge removed the
heads whose label set equals `m`. -/
def popRest (m : Lbls) : List (List ChunkSeries) → List (List ChunkSeries)
  | [] => []
  | [] :: rest => [] :: popRest m rest
  | (x :: xs) :: rest =>
    if x.lset = m then xs :: popRest m rest else (x :: xs) :: popRest m rest

/-- storage.NewConcatenatingChunkSeriesMerger (external collaborator): keeps
the first series' labels and concatenates the chunk sequences in the order
the series are given, without re-sorting chunks by time. -/
def concatMerger (ss : List ChunkSeries) : ChunkSeries where
  lset := match ss with | [] => [] | s :: _ => s.lset
  chunks := ss.flatMap ChunkSeries.chunks

/-- Fuelled k-way merge loop: emit the least current head label set, merging
all simultaneous heads carrying it into one series.  `totalLen sets` fuel is
always enough, since every step removes at least one series. -/
def mergeAux : Nat → List (List ChunkSeries) → List ChunkSeries
  | 0, _ => []
  | fuel + 1, sets =>
    match listMinLbl (headLsets sets) with
    | none => []
    | some m => concatMerger (popTaken m sets) :: mergeAux fuel (popRest m sets)

/-- Occurrences of chunks in a series list, each tagged with the label set of
the series carrying it: the invariant content of a series set that merging
must neither lose nor duplicate. -/
def tagged (l : List ChunkSeries) : List (Lbls × Chunk) :=
  l.flatMap (fun s => s.chunks.map (fun c => (s.lset, c)))

/-- Modelled from the spec: `convert.NewMergeChunkSeriesSet` (outside the
given sources) as instantiated in Select with `labels.Compare` and the
concatenating merger — the cross-block union that merges simultaneous head
series with identical label sets into one series. -/
def NewMergeChunkSeriesSet (sets : List (List ChunkSeries)) : List ChunkSeries :=
  mergeAux (totalLen sets) sets

/-! ### The querier -/

/-- storage.SelectHints, reduced to the fields the source reads. -/
structure SelectHints where
  Start : Int
  End : Int
deriving DecidableEq, Repr

/-- storage.LabelHints, reduced to the field the source reads. -/
structure LabelHints where
  limit : Int
deriving DecidableEq, Repr

structure parquetQuerier where
  mint : Int
  maxt : Int
  blocks : List ParquetBlock

/-- Effective lower bound of the query window: hints override the querier's. -/
def selMinT (p : parquetQuerier) (sp : Option SelectHints) : Int :=
  match sp with
  | none => p.mint
  | some s => s.Start

/-- Effective upper bound of the query window: hints override the querier's. -/
def selMaxT (p : parquetQuerier) (sp : Option SelectHints) : Int :=
  match sp with
  | none => p.maxt
  | some s => s.End

/-- Loop of parquetQuerier.Select over the blocks: query each block in order,
first error aborts (storage.ErrSeriesSet). -/
def querySets (sorted : Bool) (mint maxt : Int) (matchers : List Matcher) :
    List ParquetBlock → Except Err (List (List ChunkSeries))
  | [] => .ok []
  | b :: bs =>
    match b.query sorted mint maxt matchers with
    | .error e => .error e
    | .ok ss =>
      match querySets sorted mint maxt matchers bs with
      | .error e => .error e
      | .ok rest => .ok (ss :: rest)

/-- parquetQuerier.Select: query every block, then hand the per-block sets to
the cross-block merge (this happens for every value of `sorted`). -/
def parquetQuerier.Select (p : parquetQuerier) (sorted : Bool)
    (sp : Option SelectHints) (matchers : List Matcher) : Except Err (List ChunkSeries) :=
  match querySets sorted (selMinT p sp) (selMaxT p sp) matchers p.blocks with
  | .error e => .error e
  | .ok sets => .ok (NewMergeChunkSeriesSet sets)

/-- Modelled from the spec: `util.MergeUnsortedSlices` (outside the given
sources) merges the unsorted, possibly overlapping per-block lists by
sorting ascending, deduplicating, and, when the limit is positive,
truncating to the first `limit` entries. -/
def MergeUnsortedSlices (limit : Int) (lists : List (List String)) : List String :=
  if 0 < limit then ((lists.flatten.insertionSort strLe).dedup).take limit.toNat
  else (lists.flatten.insertionSort strLe).dedup

/-- Limit carried by optional label hints: zero (unlimited) when nil. -/
def labelLimit (hints : Option LabelHints) : Int :=
  match hints with
  | none => 0
  | some h => h.limit

/-- Loop of parquetQuerier.LabelValues over the blocks, first error aborts;
each block contributes one list per row group. -/
def collectLabelValues (name : String) (matchers : List Matcher) :
    List ParquetBlock → Except Err (List (List String))
  | [] => .ok []
  | b :: bs =>
    match b.labelValues name matchers with
    | .error e => .error e
    | .ok r =>
      match collectLabelValues name matchers bs with
      | .error e => .error e
      | .ok rest => .ok (r ++ rest)

/-- Loop of parquetQuerier.LabelNames over the blocks, first error aborts. -/
def collectLabelNames (matchers : List Matcher) :
    List ParquetBlock → Except Err (List (List String))
  | [] => .ok []
  | b :: bs =>
    match b.labelNames matchers with
    | .error e => .error e
    | .ok r =>
      match collectLabelNames matchers bs with
      | .error e => .error e
      | .ok rest => .ok (r ++ rest)

/-- parquetQuerier.LabelValues: gather per-block value lists, then merge with
the limit taken from the hints (0 when nil). -/
def parquetQuerier.LabelValues (p : parquetQuerier) (name : String)
    (hints : Option LabelHints) (matchers : List Matcher) : Except Err (List String) :=
  match collectLabelValues name matchers p.blocks with
  | .error e => .error e
  | .ok lists => .ok (MergeUnsortedSlices (labelLimit hints) lists)

/-- parquetQuerier.LabelNames: gather per-block name lists, then merge with
the limit taken from the hints (0 when nil). -/
def parquetQuerier.LabelNames (p : parquetQuerier)
    (hints : Option LabelHints) (matchers : List Matcher) : Except Err (List String) :=
  match collectLabelNames matchers p.blocks with
  | .error e => .error e
  | .ok lists => .ok (MergeUnsortedSlices (labelLimit hints) lists)

/-! ### Construction -/

structure parquetQueryable where
  blocks : List ParquetBlock

/-- NewParquetQueryable: wraps the blocks; the Go function returns a nil
error unconditionally. -/
def NewParquetQueryable (blocks : List ParquetBlock) : Except Err parquetQueryable :=
  .ok ⟨blocks⟩

/-- parquetQueryable.Querier: captures the window and the shared blocks; the
Go method returns a nil error unconditionally. -/
def parquetQueryable.Querier (p : parquetQueryable) (mint maxt : Int) :
    Except Err parquetQuerier :=
  .ok ⟨mint, maxt, p.blocks⟩

/-- Abstract token for the prometheus-parquet schema derived from a labels
file by schema.FromLabelsFile. -/
structure PromSchema where
  id : Nat
deriving DecidableEq, Repr

/-- Abstract token for schema.PrometheusParquetChunksDecoder, the externally
supplied chunk decoder. -/
structure ChunksDecoder where
  id : Nat
deriving DecidableEq, Repr

/-- Modelled from the spec: the two fallible collaborators of NewParquetBlock
that live outside the given sources — schema derivation from the labels file
and materializer construction. -/
structure BlockEnv where
  fromLabelsFile : ParquetFile → Except Err PromSchema
  newMaterializer : PromSchema → ChunksDecoder → ParquetFile → ParquetFile → Except Err Materializer

/-- NewParquetBlock: derive the schema from the labels file, build the
materializer over it, and on success return the block holding the two files
and the materializer; either failure aborts. -/
def NewParquetBlock (env : BlockEnv) (lf cf : ParquetFile) (d : ChunksDecoder) :
    Except Err ParquetBlock :=
  match env.fromLabelsFile lf with
  | .error e => .error e
  | .ok s =>
    match env.newMaterializer s d lf cf with
    | .error e => .error e
    | .ok m => .ok ⟨lf, cf, m⟩

/-! ### State-passing variants for the frame property

The Go methods take the receiver and only ever read it; the state-passing
embedding makes that observable by threading the receiver through each
statement of the method body and returning it alongside the result. -/

/-- ParquetBlock.query with the receiver threaded explicitly: the source
reads `b.lf`, `b.m` and never assigns any field of `b`. -/
def ParquetBlock.queryS (b : ParquetBlock) (sorted : Bool) (mint maxt : Int)
    (matchers : List Matcher) : Except Err (List ChunkSeries) × ParquetBlock :=
  match MatchersToConstraint matchers with
  | .error e => (.error e, b)
  | .ok cs =>
    match Initialize b.lf.schema cs with
    | .error e => (.error e, b)
    | .ok _ =>
      match queryGroups b.m cs mint maxt 0 b.lf.rowGroups with
      | .error e => (.error e, b)
      | .ok results => (.ok (if sorted then sortByLabels results else results), b)

/-- ParquetBlock.labelNames with the receiver threaded explicitly. -/
def ParquetBlock.labelNamesS (b : ParquetBlock) (matchers : List Matcher) :
    Except Err (List (List String)) × ParquetBlock :=
  match MatchersToConstraint matchers with
  | .error e => (.error e, b)
  | .ok cs =>
    match Initialize b.lf.schema cs with
    | .error e => (.error e, b)
    | .ok _ => (labelNamesGroups b.m cs 0 b.lf.rowGroups, b)

/-- ParquetBlock.labelValues with the receiver threaded explicitly. -/
def ParquetBlock.labelValuesS (b : ParquetBlock) (name : String)
    (matchers : List Matcher) : Except Err (List (List String)) × ParquetBlock :=
  match MatchersToConstraint matchers with
  | .error e => (.error e, b)
  | .ok cs =>
    match Initialize b.lf.schema cs with
    | .error e => (.error e, b)
    | .ok _ => (labelValuesGroups b.m name cs 0 b.lf.rowGroups, b)

/-! ### Concrete fixtures used by witnesses and counterexamples -/

/-- Materializer whose entry points all succeed with empty results. -/
def trivMaterializer : Materializer where
  materialize := fun _ _ _ _ => .ok []
  materializeLabelNames := fun _ _ => .ok []
  materializeLabelValues := fun _ _ _ => .ok []

/-- Parquet file with a readable schema and no row groups. -/
def emptyFile : ParquetFile := ⟨⟨none⟩, []⟩

/-- Row group whose filter always returns candidate row 0. -/
def rgAll : RowGroup := ⟨fun _ => .ok [0]⟩

/-- Parquet file with a readable schema and one all-pass row group. -/
def oneGroupFile : ParquetFile := ⟨⟨none⟩, [rgAll]⟩

/-- Materializer that yields one fixed series on full materialization. -/
def constMaterializer (s : ChunkSeries) : Materializer where
  materialize := fun _ _ _ _ => .ok [s]
  materializeLabelNames := fun _ _ => .ok ["job"]
  materializeLabelValues := fun _ _ _ => .ok ["x"]

/-- Block producing exactly the one series `s` on any query. -/
def constBlock (s : ChunkSeries) : ParquetBlock := ⟨oneGroupFile, emptyFile, constMaterializer s⟩

/-- Chunk covering the earlier window. -/
def chA : Chunk := ⟨0, 100, 0⟩

/-- Chunk covering the later window. -/
def chB : Chunk := ⟨100, 200, 1⟩

/-- Series ⦃job="x"⦄ with the earlier chunk. -/
def seriesA : ChunkSeries := ⟨[("job", "x")], [chA]⟩

/-- Series ⦃job="x"⦄ with the later chunk. -/
def seriesB : ChunkSeries := ⟨[("job", "x")], [chB]⟩

/-- Matcher whose regex pattern failed to parse. -/
def badMatcher : Matcher := ⟨"job", .regexMatch, "(", false⟩

/-- Row group whose filter fails. -/
def rgFail : RowGroup := ⟨fun _ => .error "filter error"⟩

/-- Parquet file whose schema cannot be read. -/
def badSchemaFile : ParquetFile := ⟨⟨some "io error"⟩, []⟩

/-- Block whose constraint binding fails on every operation. -/
def initFailBlock : ParquetBlock := ⟨badSchemaFile, emptyFile, trivMaterializer⟩

/-- Block whose second row group fails to filter. -/
def filterFailBlock : ParquetBlock :=
  ⟨⟨⟨none⟩, [rgAll, rgFail]⟩, emptyFile, constMaterializer seriesA⟩

/-! ### Generic facts about the comparators -/

theorem Ordering.then_eq_eq {x y : Ordering} : x.then y = .eq ↔ x = .eq ∧ y = .eq := by
  cases x <;> simp [Ordering.then]

theorem Ordering.then_eq_lt {x y : Ordering} :
    x.then y = .lt ↔ x = .lt ∨ (x = .eq ∧ y = .lt) := by
  cases x <;> simp [Ordering.then]

theorem Ordering.then_eq_gt {x y : Ordering} :
    x.then y = .gt ↔ x = .gt ∨ (x = .eq ∧ y = .gt) := by
  cases x <;> simp [Ordering.then]

theorem charCompare_eq_iff {a b : Char} : charCompare a b = .eq ↔ a = b := by
  unfold charCompare
  split_ifs with h1 h2
  · simp [h1.ne]
  · simp [(h2.ne).symm]
  · simp [le_antisymm (not_lt.mp h2) (not_lt.mp h1)]

theorem charCompare_lt_iff {a b : Char} : charCompare a b = .lt ↔ a < b := by
  unfold charCompare
  split_ifs with h1 h2
  · simp [h1]
  · simp [h2.asymm]
  · simp [h1]

theorem charCompare_gt_iff {a b : Char} : charCompare a b = .gt ↔ b < a := by
  unfold charCompare
  split_ifs with h1 h2
  · simp [h1, h1.asymm]
  · simp [h2]
  · simp [h2]

theorem charCompare_swap (a b : Char) : (charCompare a b).swap = charCompare b a := by
  rcases h : charCompare a b with _ | _ | _
  · rw [charCompare_lt_iff] at h
    rw [show Ordering.lt.swap = Ordering.gt from rfl, Eq.comm, charCompare_gt_iff]
    exact h
  · rw [charCompare_eq_iff] at h
    subst h
    rw [show Ordering.eq.swap = Ordering.eq from rfl, Eq.comm, charCompare_eq_iff]
  · rw [charCompare_gt_iff] at h
    rw [show Ordering.gt.swap = Ordering.lt from rfl, Eq.comm, charCompare_lt_iff]
    exact h

theorem charCompare_lt_trans {a b c : Char} (h1 : charCompare a b = .lt)
    (h2 : charCompare b c = .lt) : charCompare a c = .lt := by
  rw [charCompare_lt_iff] at h1 h2 ⊢
  exact lt_trans h1 h2

theorem lexCompare_eq_iff {α : Type} (cmp : α → α → Ordering)
    (hEq : ∀ a b : α, cmp a b = .eq ↔ a = b) :
    ∀ {x y : List α}, lexCompare cmp x y = .eq ↔ x = y
  | [], [] => by simp [lexCompare]
  | [], _ :: _ => by simp [lexCompare]
  | _ :: _, [] => by simp [lexCompare]
  | a :: as, b :: bs => by
    simp only [lexCompare, Ordering.then_eq_eq, hEq,
      lexCompare_eq_iff cmp hEq (x := as) (y := bs), List.cons.injEq]

theorem lexCompare_swap {α : Type} (cmp : α → α → Ordering)
    (hSwap : ∀ a b : α, (cmp a b).swap = cmp b a) :
    ∀ (x y : List α), (lexCompare cmp x y).swap = lexCompare cmp y x
  | [], [] => rfl
  | [], _ :: _ => rfl
  | _ :: _, [] => rfl
  | a :: as, b :: bs => by
    show ((cmp a b).then (lexCompare cmp as bs)).swap = (cmp b a).then (lexCompare cmp bs as)
    rw [← hSwap a b, ← lexCompare_swap cmp hSwap as bs]
    cases cmp a b <;> rfl

theorem lexCompare_lt_trans {α : Type} (cmp : α → α → Ordering)
    (hEq : ∀ a b : α, cmp a b = .eq ↔ a = b)
    (hLtTrans : ∀ {a b c : α}, cmp a b = .lt → cmp b c = .lt → cmp a c = .lt) :
    ∀ {x y z : List α}, lexCompare cmp x y = .lt →
      lexCompare cmp y z = .lt → lexCompare cmp x z = .lt
  | x, [], z => by intro h1; cases x <;> simp [lexCompare] at h1
  | [], _ :: _, [] => by intro _ h2; simp [lexCompare] at h2
  | [], _ :: _, _ :: _ => by intro _ _; rfl
  | _ :: _, _ :: _, [] => by intro _ h2; simp [lexCompare] at h2
  | a :: as, b :: bs, c :: cs => by
    intro h1 h2
    simp only [lexCompare, Ordering.then_eq_lt] at h1 h2 ⊢
    rcases h1 with h1 | ⟨h1e, h1t⟩
    · rcases h2 with h2 | ⟨h2e, h2t⟩
      · exact Or.inl (hLtTrans h1 h2)
      · rw [hEq] at h2e; subst h2e; exact Or.inl h1
    · rw [hEq] at h1e; subst h1e
      rcases h2 with h2 | ⟨h2e, h2t⟩
      · exact Or.inl h2
      · rw [hEq] at h2e; subst h2e
        exact Or.inr ⟨(hEq _ _).mpr rfl, lexCompare_lt_trans cmp hEq hLtTrans h1t h2t⟩

theorem strCompare_eq_iff {a b : String} : strCompare a b = .eq ↔ a = b := by
  unfold strCompare
  rw [lexCompare_eq_iff charCompare (fun _ _ => charCompare_eq_iff)]
  exact ⟨fun h => String.ext h, fun h => by rw [h]⟩

theorem strCompare_swap (a b : String) : (strCompare a b).swap = strCompare b a :=
  lexCompare_swap charCompare charCompare_swap _ _

theorem strCompare_lt_trans {a b c : String} (h1 : strCompare a b = .lt)
    (h2 : strCompare b c = .lt) : strCompare a c = .lt :=
  lexCompare_lt_trans charCompare (fun _ _ => charCompare_eq_iff)
    (fun h h2 => charCompare_lt_trans h h2) h1 h2

theorem pairCompare_eq_iff {p q : String × String} : pairCompare p q = .eq ↔ p = q := by
  unfold pairCompare
  rw [Ordering.then_eq_eq, strCompare_eq_iff, strCompare_eq_iff, Prod.ext_iff]

theorem pairCompare_swap (p q : String × String) : (pairCompare p q).swap = pairCompare q p := by
  unfold pairCompare
  rw [← strCompare_swap p.1 q.1, ← strCompare_swap p.2 q.2]
  cases strCompare p.1 q.1 <;> rfl

theorem pairCompare_lt_trans {p q r : String × String} (h1 : pairCompare p q = .lt)
    (h2 : pairCompare q r = .lt) : pairCompare p r = .lt := by
  unfold pairCompare at h1 h2 ⊢
  rw [Ordering.then_eq_lt] at h1 h2 ⊢
  rcases h1 with h1 | ⟨h1e, h1t⟩
  · rcases h2 with h2 | ⟨h2e, h2t⟩
    · exact Or.inl (strCompare_lt_trans h1 h2)
    · rw [strCompare_eq_iff] at h2e
      exact Or.inl (h2e ▸ h1)
  · rw [strCompare_eq_iff] at h1e
    rcases h2 with h2 | ⟨h2e, h2t⟩
    · exact Or.inl (h1e ▸ h2)
    · rw [strCompare_eq_iff] at h2e
      exact Or.inr ⟨strCompare_eq_iff.mpr (h1e.trans h2e), strCompare_lt_trans h1t h2t⟩

theorem lblCompare_eq_iff {a b : Lbls} : lblCompare a b = .eq ↔ a = b :=
  lexCompare_eq_iff pairCompare (fun _ _ => pairCompare_eq_iff)

theorem lblCompare_lt_trans {a b c : Lbls} (h1 : lblCompare a b = .lt)
    (h2 : lblCompare b c = .lt) : lblCompare a c = .lt :=
  lexCompare_lt_trans pairCompare (fun _ _ => pairCompare_eq_iff)
    (fun h h2 => pairCompare_lt_trans h h2) h1 h2

theorem lblCompare_refl (a : Lbls) : lblCompare a a = .eq := lblCompare_eq_iff.mpr rfl

theorem lblCompare_swap (a b : Lbls) : (lblCompare a b).swap = lblCompare b a :=
  lexCompare_swap pairCompare pairCompare_swap a b

theorem lblCompare_gt_iff_lt {a b : Lbls} : lblCompare a b = .gt ↔ lblCompare b a = .lt := by
  rw [← lblCompare_swap b a]
  cases lblCompare b a <;> simp [Ordering.swap]

theorem lblLe_refl (a : Lbls) : lblLe a a := by
  unfold lblLe
  rw [lblCompare_refl]
  intro h
  exact Ordering.noConfusion h

theorem lblLe_of_lt {a b : Lbls} (h : lblCompare a b = .lt) : lblLe a b := by
  unfold lblLe
  rw [h]
  intro h2
  exact Ordering.noConfusion h2

theorem lblLe_trans {a b c : Lbls} (h1 : lblLe a b) (h2 : lblLe b c) : lblLe a c := by
  unfold lblLe at h1 h2 ⊢
  rcases hab : lblCompare a b with _ | _ | _
  · rcases hbc : lblCompare b c with _ | _ | _
    · rw [lblCompare_lt_trans hab hbc]; intro h; exact Ordering.noConfusion h
    · rw [lblCompare_eq_iff] at hbc; subst hbc; rw [hab]; intro h; exact Ordering.noConfusion h
    · exact absurd hbc h2
  · rw [lblCompare_eq_iff] at hab; subst hab; exact h2
  · exact absurd hab h1

theorem lblLe_total (a b : Lbls) : lblLe a b ∨ lblLe b a := by
  unfold lblLe
  rcases h : lblCompare a b with _ | _ | _
  · left; intro h2; exact Ordering.noConfusion h2
  · left; intro h2; exact Ordering.noConfusion h2
  · right
    rw [lblCompare_gt_iff_lt] at h
    rw [h]
    intro h2
    exact Ordering.noConfusion h2

theorem strLe_trans {a b c : String} (h1 : strLe a b) (h2 : strLe b c) : strLe a c := by
  unfold strLe at h1 h2 ⊢
  rcases hab : strCompare a b with _ | _ | _
  · rcases hbc : strCompare b c with _ | _ | _
    · rw [strCompare_lt_trans hab hbc]; intro h; exact Ordering.noConfusion h
    · rw [strCompare_eq_iff] at hbc; subst hbc; rw [hab]; intro h; exact Ordering.noConfusion h
    · exact absurd hbc h2
  · rw [strCompare_eq_iff] at hab; subst hab; exact h2
  · exact absurd hab h1

theorem strCompare_gt_iff_lt {a b : String} : strCompare a b = .gt ↔ strCompare b a = .lt := by
  rw [← strCompare_swap b a]
  cases strCompare b a <;> simp [Ordering.swap]

theorem strLe_total (a b : String) : strLe a b ∨ strLe b a := by
  unfold strLe
  rcases h : strCompare a b with _ | _ | _
  · left; intro h2; exact Ordering.noConfusion h2
  · left; intro h2; exact Ordering.noConfusion h2
  · right
    rw [strCompare_gt_iff_lt] at h
    rw [h]
    intro h2
    exact Ordering.noConfusion h2

theorem strLt_of_strLe_of_ne {a b : String} (h : strLe a b) (hne : a ≠ b) : strLt a b := by
  unfold strLe at h
  unfold strLt
  rcases hc : strCompare a b with _ | _ | _
  · rfl
  · rw [strCompare_eq_iff] at hc; exact absurd hc hne
  · exact absurd hc h

theorem lblLeCS_iff_not_less {a b : ChunkSeries} : lblLeCS a b ↔ ¬ byLabelsLess b a := by
  unfold lblLeCS lblLe byLabelsLess
  exact not_congr lblCompare_gt_iff_lt

theorem lblLeCS_trans : ∀ a b c : ChunkSeries, lblLeCS a b → lblLeCS b c → lblLeCS a c :=
  fun _ _ _ h1 h2 => lblLe_trans h1 h2

theorem lblLeCS_total : ∀ a b : ChunkSeries, lblLeCS a b ∨ lblLeCS b a :=
  fun a b => lblLe_total a.lset b.lset

/-! ### Claim C9 -/

/-- C9: for every list of blocks, NewParquetQueryable returns a queryable and
no error, and for every mint and maxt, Querier returns a querier and no
error; neither construction operation can fail. -/
theorem C9_construction_never_fails (blocks : List ParquetBlock) (mint maxt : Int) :
    NewParquetQueryable blocks = .ok ⟨blocks⟩ ∧
    parquetQueryable.Querier ⟨blocks⟩ mint maxt = .ok ⟨mint, maxt, blocks⟩ :=
  ⟨rfl, rfl⟩

/-! ### Claim C10 -/

/-- C10: non-nil select hints override the querier's window with the hints'
Start and End, nil hints fall back to the querier's mint and maxt, and nil
label hints behave as limit 0 for LabelNames and LabelValues. -/
theorem C10_hint_defaults (p : parquetQuerier) (sorted : Bool) (sp : SelectHints)
    (name : String) (ms : List Matcher) :
    p.Select sorted (some sp) ms =
      parquetQuerier.Select ⟨sp.Start, sp.End, p.blocks⟩ sorted none ms ∧
    p.Select sorted none ms = p.Select sorted (some ⟨p.mint, p.maxt⟩) ms ∧
    p.LabelValues name none ms = p.LabelValues name (some ⟨0⟩) ms ∧
    p.LabelNames none ms = p.LabelNames (some ⟨0⟩) ms :=
  ⟨rfl, rfl, rfl, rfl⟩

/-! ### Claim C8 -/

/-- C8: the state-passing embeddings of query, labelNames and labelValues
return the receiver block unchanged and compute the same result as the plain
embeddings: running a query never mutates the block. -/
theorem C8_query_never_mutates_block (b : ParquetBlock) (sorted : Bool)
    (mint maxt : Int) (name : String) (ms : List Matcher) :
    (b.queryS sorted mint maxt ms).2 = b ∧
    (b.queryS sorted mint maxt ms).1 = b.query sorted mint maxt ms ∧
    (b.labelNamesS ms).2 = b ∧
    (b.labelNamesS ms).1 = b.labelNames ms ∧
    (b.labelValuesS name ms).2 = b ∧
    (b.labelValuesS name ms).1 = b.labelValues name ms := by
  refine ⟨?_, ?_, ?_, ?_, ?_, ?_⟩
  · unfold ParquetBlock.queryS
    split
    · rfl
    · split
      · rfl
      · split <;> rfl
  · unfold ParquetBlock.queryS ParquetBlock.query
    split
    · rfl
    · split
      · rfl
      · split <;> rfl
  · unfold ParquetBlock.labelNamesS
    split
    · rfl
    · split <;> rfl
  · unfold ParquetBlock.labelNamesS ParquetBlock.labelNames
    split
    · rfl
    · split <;> rfl
  · unfold ParquetBlock.labelValuesS
    split
    · rfl
    · split <;> rfl
  · unfold ParquetBlock.labelValuesS ParquetBlock.labelValues
    split
    · rfl
    · split <;> rfl

/-! ### Claim C6 -/

/-- C6: when the matcher list cannot be translated, each per-block operation
returns the translation error, for every block whatsoever — in particular the
result does not depend on the block's row groups or materializer, so no
filtering or materialization is performed. -/
theorem C6_translation_error_before_io (ms : List Matcher) (e : Err)
    (h : MatchersToConstraint ms = .error e) :
    ∀ (b : ParquetBlock) (sorted : Bool) (mint maxt : Int) (name : String),
      b.query sorted mint maxt ms = .error e ∧
      b.labelNames ms = .error e ∧
      b.labelValues name ms = .error e := by
  intro b sorted mint maxt name
  unfold ParquetBlock.query ParquetBlock.labelNames ParquetBlock.labelValues
  rw [h]
  exact ⟨rfl, rfl, rfl⟩

/-- Witness for C6 at a concrete bad matcher and a block that would succeed
on every row group were it ever consulted. -/
theorem C6_translation_error_before_io_witness :
    (constBlock seriesA).query true 0 200 [badMatcher] = .error "invalid pattern" ∧
    (constBlock seriesA).labelNames [badMatcher] = .error "invalid pattern" ∧
    (constBlock seriesA).labelValues "job" [badMatcher] = .error "invalid pattern" :=
  C6_translation_error_before_io [badMatcher] "invalid pattern" rfl
    (constBlock seriesA) true 0 200 "job"

/-! ### Facts about the k-way merge -/

theorem foldlMin_le : ∀ (ys : List Lbls) (m : Lbls),
    lblLe (foldlMin m ys) m ∧ ∀ y ∈ ys, lblLe (foldlMin m ys) y
  | [], m => ⟨lblLe_refl m, fun y hy => absurd hy (List.not_mem_nil y)⟩
  | y :: ys, m => by
    simp only [foldlMin]
    by_cases hc : lblCompare y m = .lt
    · rw [if_pos hc]
      have ih := foldlMin_le ys y
      refine ⟨lblLe_trans ih.1 (lblLe_of_lt hc), fun z hz => ?_⟩
      rcases List.mem_cons.mp hz with h | h
      · rw [h]; exact ih.1
      · exact ih.2 z h
    · rw [if_neg hc]
      have ih := foldlMin_le ys m
      have hmy : lblLe m y := by
        unfold lblLe
        intro hgt
        exact hc (lblCompare_gt_iff_lt.mp hgt)
      refine ⟨ih.1, fun z hz => ?_⟩
      rcases List.mem_cons.mp hz with h | h
      · rw [h]; exact lblLe_trans ih.1 hmy
      · exact ih.2 z h

theorem foldlMin_mem : ∀ (ys : List Lbls) (m : Lbls), foldlMin m ys = m ∨ foldlMin m ys ∈ ys
  | [], _ => Or.inl rfl
  | y :: ys, m => by
    simp only [foldlMin]
    by_cases hc : lblCompare y m = .lt
    · rw [if_pos hc]
      rcases foldlMin_mem ys y with h | h
      · exact Or.inr (by rw [h]; exact List.mem_cons_self _ _)
      · exact Or.inr (List.mem_cons_of_mem _ h)
    · rw [if_neg hc]
      rcases foldlMin_mem ys m with h | h
      · exact Or.inl h
      · exact Or.inr (List.mem_cons_of_mem _ h)

theorem listMinLbl_mem {l : List Lbls} {m : Lbls} (h : listMinLbl l = some m) : m ∈ l := by
  cases l with
  | nil => exact Option.noConfusion h
  | cons x xs =>
    have hm : foldlMin x xs = m := by injection h
    rcases foldlMin_mem xs x with h2 | h2
    · rw [← hm, h2]; exact List.mem_cons_self _ _
    · rw [← hm]; exact List.mem_cons_of_mem _ h2

theorem listMinLbl_le {l : List Lbls} {m : Lbls} (h : listMinLbl l = some m) :
    ∀ y ∈ l, lblLe m y := by
  cases l with
  | nil => exact fun y hy => absurd hy (List.not_mem_nil y)
  | cons x xs =>
    have hm : foldlMin x xs = m := by injection h
    intro y hy
    rcases List.mem_cons.mp hy with h2 | h2
    · rw [h2, ← hm]; exact (foldlMin_le xs x).1
    · rw [← hm]; exact (foldlMin_le xs x).2 y h2

theorem listMinLbl_none {l : List Lbls} (h : listMinLbl l = none) : l = [] := by
  cases l with
  | nil => rfl
  | cons x xs => exact Option.noConfusion h

theorem headLsets_eq_nil {sets : List (List ChunkSeries)} (h : headLsets sets = []) :
    ∀ s ∈ sets, s = [] := by
  intro s hs
  have := List.filterMap_eq_nil_iff.mp h s hs
  cases s with
  | nil => rfl
  | cons x xs => simp at this

theorem mem_headLsets {sets : List (List ChunkSeries)} {m : Lbls}
    (h : m ∈ headLsets sets) : ∃ x xs, (x :: xs) ∈ sets ∧ x.lset = m := by
  obtain ⟨s, hs, hmap⟩ := List.mem_filterMap.mp h
  cases s with
  | nil => simp at hmap
  | cons x xs =>
    refine ⟨x, xs, hs, ?_⟩
    simpa using hmap

theorem headLsets_mem_of {sets : List (List ChunkSeries)} {x : ChunkSeries}
    {xs : List ChunkSeries} (h : (x :: xs) ∈ sets) : x.lset ∈ headLsets sets :=
  List.mem_filterMap.mpr ⟨x :: xs, h, rfl⟩

theorem popTaken_lset (m : Lbls) : ∀ (sets : List (List ChunkSeries)),
    ∀ x ∈ popTaken m sets, x.lset = m
  | [], x, hx => absurd hx (List.not_mem_nil x)
  | [] :: rest, x, hx => popTaken_lset m rest x hx
  | (y :: ys) :: rest, x, hx => by
    by_cases hc : y.lset = m
    · rw [popTaken, if_pos hc] at hx
      rcases List.mem_cons.mp hx with h | h
      · rw [h]; exact hc
      · exact popTaken_lset m rest x h
    · rw [popTaken, if_neg hc] at hx
      exact popTaken_lset m rest x hx

theorem popTaken_mem (m : Lbls) : ∀ (sets : List (List ChunkSeries)),
    ∀ x ∈ popTaken m sets, ∃ s ∈ sets, x ∈ s
  | [], x, hx => absurd hx (List.not_mem_nil x)
  | [] :: rest, x, hx => by
    obtain ⟨s, hs, hxs⟩ := popTaken_mem m rest x hx
    exact ⟨s, List.mem_cons_of_mem _ hs, hxs⟩
  | (y :: ys) :: rest, x, hx => by
    by_cases hc : y.lset = m
    · rw [popTaken, if_pos hc] at hx
      rcases List.mem_cons.mp hx with h | h
      · exact ⟨y :: ys, List.mem_cons_self _ _, by rw [h]; exact List.mem_cons_self _ _⟩
      · obtain ⟨s, hs, hxs⟩ := popTaken_mem m rest x h
        exact ⟨s, List.mem_cons_of_mem _ hs, hxs⟩
    · rw [popTaken, if_neg hc] at hx
      obtain ⟨s, hs, hxs⟩ := popTaken_mem m rest x hx
      exact ⟨s, List.mem_cons_of_mem _ hs, hxs⟩

theorem popRest_mem (m : Lbls) : ∀ (sets : List (List ChunkSeries)),
    ∀ s2 ∈ popRest m sets, ∀ x ∈ s2, ∃ s ∈ sets, x ∈ s
  | [], s2, hs2, x, hx => absurd hs2 (List.not_mem_nil s2)
  | [] :: rest, s2, hs2, x, hx => by
    rcases List.mem_cons.mp hs2 with h | h
    · rw [h] at hx; exact absurd hx (List.not_mem_nil x)
    · obtain ⟨s, hs, hxs⟩ := popRest_mem m rest s2 h x hx
      exact ⟨s, List.mem_cons_of_mem _ hs, hxs⟩
  | (y :: ys) :: rest, s2, hs2, x, hx => by
    by_cases hc : y.lset = m
    · rw [popRest, if_pos hc] at hs2
      rcases List.mem_cons.mp hs2 with h | h
      · rw [h] at hx
        exact ⟨y :: ys, List.mem_cons_self _ _, List.mem_cons_of_mem _ hx⟩
      · obtain ⟨s, hs, hxs⟩ := popRest_mem m rest s2 h x hx
        exact ⟨s, List.mem_cons_of_mem _ hs, hxs⟩
    · rw [popRest, if_neg hc] at hs2
      rcases List.mem_cons.mp hs2 with h | h
      · rw [h] at hx
        exact ⟨y :: ys, List.mem_cons_self _ _, hx⟩
      · obtain ⟨s, hs, hxs⟩ := popRest_mem m rest s2 h x hx
        exact ⟨s, List.mem_cons_of_mem _ hs, hxs⟩

theorem popRest_sorted (m : Lbls) : ∀ (sets : List (List ChunkSeries)),
    (∀ s ∈ sets, s.Sorted lblLeCS) → ∀ s2 ∈ popRest m sets, s2.Sorted lblLeCS
  | [], _, s2, hs2 => absurd hs2 (List.not_mem_nil s2)
  | [] :: rest, hall, s2, hs2 => by
    rcases List.mem_cons.mp hs2 with h | h
    · rw [h]; exact List.sorted_nil
    · exact popRest_sorted m rest (fun s hs => hall s (List.mem_cons_of_mem _ hs)) s2 h
  | (y :: ys) :: rest, hall, s2, hs2 => by
    have hhead : (y :: ys).Sorted lblLeCS := hall _ (List.mem_cons_self _ _)
    have hrest : ∀ s ∈ rest, s.Sorted lblLeCS :=
      fun s hs => hall s (List.mem_cons_of_mem _ hs)
    by_cases hc : y.lset = m
    · rw [popRest, if_pos hc] at hs2
      rcases List.mem_cons.mp hs2 with h | h
      · rw [h]; exact hhead.of_cons
      · exact popRest_sorted m rest hrest s2 h
    · rw [popRest, if_neg hc] at hs2
      rcases List.mem_cons.mp hs2 with h | h
      · rw [h]; exact hhead
      · exact popRest_sorted m rest hrest s2 h

theorem headLsets_nil_cons (rest : List (List ChunkSeries)) :
    headLsets ([] :: rest) = headLsets rest := by
  simp [headLsets]

theorem headLsets_cons_cons (y : ChunkSeries) (ys : List ChunkSeries)
    (rest : List (List ChunkSeries)) :
    headLsets ((y :: ys) :: rest) = y.lset :: headLsets rest := by
  simp [headLsets]

theorem popRest_lowerBound (m : Lbls) : ∀ (sets : List (List ChunkSeries)),
    (∀ l ∈ headLsets sets, lblLe m l) →
    (∀ s ∈ sets, s.Sorted lblLeCS) →
    ∀ s2 ∈ popRest m sets, ∀ x ∈ s2, lblLe m x.lset
  | [], _, _, s2, hs2 => absurd hs2 (List.not_mem_nil s2)
  | [] :: rest, hlb, hall, s2, hs2 => by
    rw [popRest] at hs2
    rcases List.mem_cons.mp hs2 with h | h
    · intro x hx
      rw [h] at hx
      exact absurd hx (List.not_mem_nil x)
    · exact popRest_lowerBound m rest
        (fun l hl => hlb l (by rw [headLsets_nil_cons]; exact hl))
        (fun s hs => hall s (List.mem_cons_of_mem _ hs)) s2 h
  | (y :: ys) :: rest, hlb, hall, s2, hs2 => by
    have hmy : lblLe m y.lset := hlb y.lset (by rw [headLsets_cons_cons]; exact List.mem_cons_self _ _)
    have hhead : (y :: ys).Sorted lblLeCS := hall _ (List.mem_cons_self _ _)
    have hys : ∀ x ∈ ys, lblLe m x.lset := by
      intro x hx
      exact lblLe_trans hmy ((List.sorted_cons.mp hhead).1 x hx)
    have hrecur := popRest_lowerBound m rest
      (fun l hl => hlb l (by rw [headLsets_cons_cons]; exact List.mem_cons_of_mem _ hl))
      (fun s hs => hall s (List.mem_cons_of_mem _ hs))
    by_cases hc : y.lset = m
    · rw [popRest, if_pos hc] at hs2
      rcases List.mem_cons.mp hs2 with h | h
      · intro x hx
        rw [h] at hx
        exact hys x hx
      · exact hrecur s2 h
    · rw [popRest, if_neg hc] at hs2
      rcases List.mem_cons.mp hs2 with h | h
      · intro x hx
        rw [h] at hx
        rcases List.mem_cons.mp hx with h2 | h2
        · rw [h2]; exact hmy
        · exact hys x h2
      · exact hrecur s2 h

theorem totalLen_nil : totalLen [] = 0 := rfl

theorem totalLen_cons (s : List ChunkSeries) (rest : List (List ChunkSeries)) :
    totalLen (s :: rest) = s.length + totalLen rest := by
  simp [totalLen]

theorem totalLen_popRest_le (m : Lbls) : ∀ (sets : List (List ChunkSeries)),
    totalLen (popRest m sets) ≤ totalLen sets
  | [] => le_refl 0
  | [] :: rest => by
    rw [popRest, totalLen_cons, totalLen_cons]
    have := totalLen_popRest_le m rest
    omega
  | (y :: ys) :: rest => by
    have := totalLen_popRest_le m rest
    by_cases hc : y.lset = m
    · rw [popRest, if_pos hc, totalLen_cons, totalLen_cons]
      simp only [List.length_cons]
      omega
    · rw [popRest, if_neg hc, totalLen_cons, totalLen_cons]
      omega

theorem totalLen_popRest_lt (m : Lbls) : ∀ (sets : List (List ChunkSeries)),
    m ∈ headLsets sets → totalLen (popRest m sets) < totalLen sets
  | [], hm => by simp [headLsets] at hm
  | [] :: rest, hm => by
    rw [headLsets_nil_cons] at hm
    rw [popRest, totalLen_cons, totalLen_cons]
    have := totalLen_popRest_lt m rest hm
    omega
  | (y :: ys) :: rest, hm => by
    by_cases hc : y.lset = m
    · rw [popRest, if_pos hc, totalLen_cons, totalLen_cons]
      simp only [List.length_cons]
      have := totalLen_popRest_le m rest
      omega
    · rw [headLsets_cons_cons] at hm
      rcases List.mem_cons.mp hm with h | h
      · exact absurd h.symm hc
      · rw [popRest, if_neg hc, totalLen_cons, totalLen_cons]
        have := totalLen_popRest_lt m rest h
        omega

theorem popTaken_ne_nil (m : Lbls) : ∀ (sets : List (List ChunkSeries)),
    m ∈ headLsets sets → popTaken m sets ≠ []
  | [], hm => by simp [headLsets] at hm
  | [] :: rest, hm => by
    rw [headLsets_nil_cons] at hm
    rw [popTaken]
    exact popTaken_ne_nil m rest hm
  | (y :: ys) :: rest, hm => by
    by_cases hc : y.lset = m
    · rw [popTaken, if_pos hc]
      exact List.cons_ne_nil _ _
    · rw [headLsets_cons_cons] at hm
      rcases List.mem_cons.mp hm with h | h
      · exact absurd h.symm hc
      · rw [popTaken, if_neg hc]
        exact popTaken_ne_nil m rest h

theorem concatMerger_lset {m : Lbls} : ∀ {ss : List ChunkSeries}, ss ≠ [] →
    (∀ x ∈ ss, x.lset = m) → (concatMerger ss).lset = m
  | [], hne, _ => absurd rfl hne
  | s :: _rest, _, hall => hall s (List.mem_cons_self _ _)

theorem popTaken_popRest_perm (m : Lbls) : ∀ (sets : List (List ChunkSeries)),
    List.Perm (popTaken m sets ++ (popRest m sets).flatten) sets.flatten
  | [] => by simp [popTaken, popRest]
  | [] :: rest => by
    rw [popTaken, popRest]
    simp only [List.flatten_cons, List.nil_append]
    exact popTaken_popRest_perm m rest
  | (y :: ys) :: rest => by
    have ih := popTaken_popRest_perm m rest
    by_cases hc : y.lset = m
    · rw [popTaken, popRest, if_pos hc, if_pos hc]
      simp only [List.flatten_cons, List.cons_append]
      refine List.Perm.cons y ?_
      have h1 : List.Perm ((popTaken m rest ++ ys) ++ (popRest m rest).flatten)
          ((ys ++ popTaken m rest) ++ (popRest m rest).flatten) :=
        List.Perm.append_right _ List.perm_append_comm
      have h2 : List.Perm (ys ++ (popTaken m rest ++ (popRest m rest).flatten))
          (ys ++ rest.flatten) :=
        List.Perm.append_left _ ih
      rw [← List.append_assoc]
      refine h1.trans ?_
      rw [List.append_assoc]
      exact h2
    · rw [popTaken, popRest, if_neg hc, if_neg hc]
      simp only [List.flatten_cons]
      have h1 : List.Perm ((popTaken m rest ++ (y :: ys)) ++ (popRest m rest).flatten)
          (((y :: ys) ++ popTaken m rest) ++ (popRest m rest).flatten) :=
        List.Perm.append_right _ List.perm_append_comm
      have h2 : List.Perm ((y :: ys) ++ (popTaken m rest ++ (popRest m rest).flatten))
          ((y :: ys) ++ rest.flatten) :=
        List.Perm.append_left _ ih
      rw [← List.append_assoc]
      refine h1.trans ?_
      rw [List.append_assoc]
      exact h2

theorem tagged_cons (x : ChunkSeries) (l : List ChunkSeries) :
    tagged (x :: l) = x.chunks.map (fun c => (x.lset, c)) ++ tagged l := by
  simp [tagged]

theorem tagged_singleton (x : ChunkSeries) :
    tagged [x] = x.chunks.map (fun c => (x.lset, c)) := by
  simp [tagged]

theorem tagged_append (l1 l2 : List ChunkSeries) :
    tagged (l1 ++ l2) = tagged l1 ++ tagged l2 := by
  simp [tagged]

theorem tagged_perm {l1 l2 : List ChunkSeries} (h : List.Perm l1 l2) :
    List.Perm (tagged l1) (tagged l2) := by
  induction h with
  | nil => exact List.Perm.refl _
  | cons x _ ih =>
    rw [tagged_cons, tagged_cons]
    exact List.Perm.append_left _ ih
  | swap x y l =>
    simp only [tagged_cons]
    rw [← List.append_assoc, ← List.append_assoc]
    exact List.Perm.append_right _ List.perm_append_comm
  | trans _ _ ih1 ih2 => exact ih1.trans ih2

theorem map_tag_flatMap : ∀ (ss : List ChunkSeries) (m : Lbls),
    (∀ x ∈ ss, x.lset = m) →
    (ss.flatMap ChunkSeries.chunks).map (fun c => (m, c)) = tagged ss
  | [], _, _ => rfl
  | s :: rest, m, hall => by
    have hs : s.lset = m := hall s (List.mem_cons_self _ _)
    have ih := map_tag_flatMap rest m (fun x hx => hall x (List.mem_cons_of_mem _ hx))
    simp only [List.flatMap_cons, List.map_append, tagged, ih, hs]

theorem tagged_concatMerger {m : Lbls} {ss : List ChunkSeries} (hne : ss ≠ [])
    (hall : ∀ x ∈ ss, x.lset = m) :
    tagged [concatMerger ss] = tagged ss := by
  have hlset : (concatMerger ss).lset = m := concatMerger_lset hne hall
  have hchunks : (concatMerger ss).chunks = ss.flatMap ChunkSeries.chunks := rfl
  calc tagged [concatMerger ss]
      = ((concatMerger ss).chunks).map (fun c => ((concatMerger ss).lset, c)) := by
        simp [tagged]
    _ = (ss.flatMap ChunkSeries.chunks).map (fun c => (m, c)) := by
        rw [hlset, hchunks]
    _ = tagged ss := map_tag_flatMap ss m hall

theorem flatten_eq_nil_of_all_nil : ∀ {sets : List (List ChunkSeries)},
    (∀ s ∈ sets, s = []) → sets.flatten = []
  | [], _ => rfl
  | s :: rest, hall => by
    rw [List.flatten_cons, hall s (List.mem_cons_self _ _),
      flatten_eq_nil_of_all_nil (fun s2 hs2 => hall s2 (List.mem_cons_of_mem _ hs2))]
    rfl

theorem totalLen_zero_flatten {sets : List (List ChunkSeries)}
    (h : totalLen sets = 0) : sets.flatten = [] := by
  have hlen : sets.flatten.length = 0 := by
    rw [List.length_flatten]
    exact h
  exact List.eq_nil_of_length_eq_zero hlen

theorem mergeAux_lset_mem : ∀ (fuel : Nat) (sets : List (List ChunkSeries)),
    ∀ y ∈ mergeAux fuel sets, ∃ s ∈ sets, ∃ x ∈ s, y.lset = x.lset
  | 0, _, y, hy => absurd hy (List.not_mem_nil y)
  | fuel + 1, sets, y, hy => by
    rw [mergeAux] at hy
    rcases hmin : listMinLbl (headLsets sets) with _ | m
    · rw [hmin] at hy
      exact absurd hy (List.not_mem_nil y)
    · rw [hmin] at hy
      have hy2 : y ∈ concatMerger (popTaken m sets) :: mergeAux fuel (popRest m sets) := hy
      rcases List.mem_cons.mp hy2 with h | h
      · have hmem := listMinLbl_mem hmin
        obtain ⟨x0, xs0, hset, hx0⟩ := mem_headLsets hmem
        have hlset : (concatMerger (popTaken m sets)).lset = m :=
          concatMerger_lset (popTaken_ne_nil m sets hmem) (popTaken_lset m sets)
        refine ⟨x0 :: xs0, hset, x0, List.mem_cons_self _ _, ?_⟩
        rw [h, hlset, hx0]
      · obtain ⟨s2, hs2, x, hx, hyx⟩ := mergeAux_lset_mem fuel (popRest m sets) y h
        obtain ⟨s, hs, hxs⟩ := popRest_mem m sets s2 hs2 x hx
        exact ⟨s, hs, x, hxs, hyx⟩

theorem mergeAux_sorted : ∀ (fuel : Nat) (sets : List (List ChunkSeries)),
    (∀ s ∈ sets, s.Sorted lblLeCS) → (mergeAux fuel sets).Sorted lblLeCS
  | 0, _, _ => List.sorted_nil
  | fuel + 1, sets, hall => by
    rw [mergeAux]
    rcases hmin : listMinLbl (headLsets sets) with _ | m
    · exact List.sorted_nil
    · show (concatMerger (popTaken m sets) :: mergeAux fuel (popRest m sets)).Sorted lblLeCS
      have hmem := listMinLbl_mem hmin
      have hlset : (concatMerger (popTaken m sets)).lset = m :=
        concatMerger_lset (popTaken_ne_nil m sets hmem) (popTaken_lset m sets)
      have ih := mergeAux_sorted fuel (popRest m sets) (popRest_sorted m sets hall)
      rw [List.sorted_cons]
      refine ⟨?_, ih⟩
      intro y hy
      obtain ⟨s2, hs2, x, hx, hyx⟩ := mergeAux_lset_mem fuel (popRest m sets) y hy
      have hlb := popRest_lowerBound m sets (listMinLbl_le hmin) hall s2 hs2 x hx
      unfold lblLeCS
      rw [hlset, hyx]
      exact hlb

theorem mergeAux_tagged_perm : ∀ (fuel : Nat) (sets : List (List ChunkSeries)),
    totalLen sets ≤ fuel →
    List.Perm (tagged (mergeAux fuel sets)) (tagged sets.flatten)
  | 0, sets, hfuel => by
    have h0 : totalLen sets = 0 := Nat.le_zero.mp hfuel
    rw [totalLen_zero_flatten h0]
    exact List.Perm.refl _
  | fuel + 1, sets, hfuel => by
    rw [mergeAux]
    rcases hmin : listMinLbl (headLsets sets) with _ | m
    · have hflat : sets.flatten = [] :=
        flatten_eq_nil_of_all_nil (headLsets_eq_nil (listMinLbl_none hmin))
      rw [hflat]
    · show List.Perm
        (tagged (concatMerger (popTaken m sets) :: mergeAux fuel (popRest m sets)))
        (tagged sets.flatten)
      have hmem := listMinLbl_mem hmin
      have hlt := totalLen_popRest_lt m sets hmem
      have ih := mergeAux_tagged_perm fuel (popRest m sets) (by omega)
      have htaken : tagged [concatMerger (popTaken m sets)] = tagged (popTaken m sets) :=
        tagged_concatMerger (popTaken_ne_nil m sets hmem) (popTaken_lset m sets)
      have hstep : List.Perm
          (tagged (popTaken m sets) ++ tagged ((popRest m sets)).flatten)
          (tagged sets.flatten) := by
        rw [← tagged_append]
        exact tagged_perm (popTaken_popRest_perm m sets)
      rw [tagged_cons, ← tagged_singleton, htaken]
      exact (List.Perm.append_left _ ih).trans hstep

/-- Sortedness of the spec-modelled cross-block merge on sorted inputs. -/
theorem newMergeChunkSeriesSet_sorted (sets : List (List ChunkSeries))
    (h : ∀ s ∈ sets, s.Sorted lblLeCS) :
    (NewMergeChunkSeriesSet sets).Sorted lblLeCS :=
  mergeAux_sorted (totalLen sets) sets h

/-- The spec-modelled cross-block merge neither loses nor duplicates any
(label set, chunk) occurrence. -/
theorem newMergeChunkSeriesSet_tagged_perm (sets : List (List ChunkSeries)) :
    List.Perm (tagged (NewMergeChunkSeriesSet sets)) (tagged sets.flatten) :=
  mergeAux_tagged_perm (totalLen sets) sets (le_refl _)

theorem sortByLabels_sorted (l : List ChunkSeries) : (sortByLabels l).Sorted lblLeCS := by
  haveI : IsTrans ChunkSeries lblLeCS := ⟨lblLeCS_trans⟩
  haveI : IsTotal ChunkSeries lblLeCS := ⟨lblLeCS_total⟩
  exact List.sorted_insertionSort lblLeCS l

theorem query_true_sorted {b : ParquetBlock} {mint maxt : Int} {ms : List Matcher}
    {l : List ChunkSeries} (h : b.query true mint maxt ms = .ok l) :
    l.Sorted lblLeCS := by
  unfold ParquetBlock.query at h
  rcases hcs : MatchersToConstraint ms with e | cs
  · rw [hcs] at h
    exact Except.noConfusion h
  · rw [hcs] at h
    have h2 : (match Initialize b.lf.schema cs with
      | .error e => Except.error e
      | .ok _ =>
        match queryGroups b.m cs mint maxt 0 b.lf.rowGroups with
        | .error e => Except.error e
        | .ok results => Except.ok (if true = true then sortByLabels results else results)) =
        Except.ok l := h
    rcases hinit : Initialize b.lf.schema cs with e | u
    · rw [hinit] at h2
      exact Except.noConfusion h2
    · rw [hinit] at h2
      have h3 : (match queryGroups b.m cs mint maxt 0 b.lf.rowGroups with
        | .error e => Except.error e
        | .ok results => Except.ok (if true = true then sortByLabels results else results)) =
          Except.ok l := h2
      rcases hq : queryGroups b.m cs mint maxt 0 b.lf.rowGroups with e | results
      · rw [hq] at h3
        exact Except.noConfusion h3
      · rw [hq] at h3
        have h4 : sortByLabels results = l := by
          have := (Except.ok.injEq _ _).mp h3
          simpa using this
        rw [← h4]
        exact sortByLabels_sorted results

theorem querySets_true_sorted {mint maxt : Int} {ms : List Matcher} :
    ∀ {bs : List ParquetBlock} {sets : List (List ChunkSeries)},
      querySets true mint maxt ms bs = .ok sets → ∀ l ∈ sets, l.Sorted lblLeCS := by
  intro bs
  induction bs with
  | nil =>
    intro sets h l hl
    have h2 : (Except.ok [] : Except Err (List (List ChunkSeries))) = .ok sets := h
    have h3 : ([] : List (List ChunkSeries)) = sets := (Except.ok.injEq _ _).mp h2
    rw [← h3] at hl
    exact absurd hl (List.not_mem_nil l)
  | cons b bs ih =>
    intro sets h l hl
    rw [querySets] at h
    rcases hq : b.query true mint maxt ms with e | ss
    · rw [hq] at h
      exact Except.noConfusion h
    · rw [hq] at h
      have h2 : (match querySets true mint maxt ms bs with
        | .error e => Except.error e
        | .ok rest => Except.ok (ss :: rest)) = Except.ok sets := h
      rcases hrest : querySets true mint maxt ms bs with e | rest
      · rw [hrest] at h2
        exact Except.noConfusion h2
      · rw [hrest] at h2
        have h3 : ss :: rest = sets := (Except.ok.injEq _ _).mp h2
        rw [← h3] at hl
        rcases List.mem_cons.mp hl with hcase | hcase
        · rw [hcase]
          exact query_true_sorted hq
        · exact ih hrest l hcase

/-! ### Claim C1 -/

/-- C1: for every set of blocks, every time window (hints or querier bounds)
and every matcher list, a Select with sorted = true whose result is a series
set yields a stream that is non-decreasing under labels.Compare across the
entire result, including across block boundaries. -/
theorem C1_select_sorted_nondecreasing (p : parquetQuerier) (sp : Option SelectHints)
    (ms : List Matcher) (out : List ChunkSeries)
    (h : p.Select true sp ms = .ok out) : out.Sorted lblLeCS := by
  unfold parquetQuerier.Select at h
  rcases hq : querySets true (selMinT p sp) (selMaxT p sp) ms p.blocks with e | sets
  · rw [hq] at h
    exact Except.noConfusion h
  · rw [hq] at h
    have h2 : NewMergeChunkSeriesSet sets = out := (Except.ok.injEq _ _).mp h
    rw [← h2]
    exact newMergeChunkSeriesSet_sorted sets (querySets_true_sorted hq)

/-- Witness for C1: two blocks delivered in reverse label order still produce
a non-decreasing merged stream. -/
theorem C1_select_sorted_nondecreasing_witness :
    List.Sorted lblLeCS [ChunkSeries.mk [("job", "a")] [chA], ChunkSeries.mk [("job", "b")] [chB]] :=
  C1_select_sorted_nondecreasing
    ⟨0, 200, [constBlock ⟨[("job", "b")], [chB]⟩, constBlock ⟨[("job", "a")], [chA]⟩]⟩
    none [] [ChunkSeries.mk [("job", "a")] [chA], ChunkSeries.mk [("job", "b")] [chB]] rfl

/-! ### Claim C2 -/

/-- C2 counterexample: with sorted = false, two blocks holding one series
each with identical label sets are still fed through the cross-block merge,
which coalesces them into a single series; the result is not the
two-element concatenation of the per-block series that the claim requires. -/
theorem C2_counterexample :
    parquetQuerier.Select ⟨0, 200, [constBlock seriesA, constBlock seriesB]⟩ false none [] =
      .ok [ChunkSeries.mk [("job", "x")] [chA, chB]] ∧
    ([ChunkSeries.mk [("job", "x")] [chA, chB]] : List ChunkSeries) ≠ [seriesA, seriesB] :=
  ⟨rfl, by decide⟩

/-- C2 (amended): with sorted = false the per-block series lists are left in
materialization order (no per-block sort), but Select still routes them
through the label-merging cross-block merge; the output therefore preserves
exactly the (label set, chunk) occurrences of the concatenation, while
series with identical label sets from different blocks may be coalesced and
the order is implementation-defined. -/
theorem C2_unsorted_select_content (p : parquetQuerier) (sp : Option SelectHints)
    (ms : List Matcher) (out : List ChunkSeries)
    (h : p.Select false sp ms = .ok out) :
    ∃ sets, querySets false (selMinT p sp) (selMaxT p sp) ms p.blocks = .ok sets ∧
      out = NewMergeChunkSeriesSet sets ∧
      List.Perm (tagged out) (tagged sets.flatten) := by
  unfold parquetQuerier.Select at h
  rcases hq : querySets false (selMinT p sp) (selMaxT p sp) ms p.blocks with e | sets
  · rw [hq] at h
    exact Except.noConfusion h
  · rw [hq] at h
    have h2 : NewMergeChunkSeriesSet sets = out := (Except.ok.injEq _ _).mp h
    refine ⟨sets, rfl, h2.symm, ?_⟩
    rw [← h2]
    exact newMergeChunkSeriesSet_tagged_perm sets

/-- Witness for the amended C2 at the counterexample configuration. -/
theorem C2_unsorted_select_content_witness :
    ∃ sets, querySets false 0 200 [] [constBlock seriesA, constBlock seriesB] = .ok sets ∧
      [ChunkSeries.mk [("job", "x")] [chA, chB]] = NewMergeChunkSeriesSet sets ∧
      List.Perm (tagged [ChunkSeries.mk [("job", "x")] [chA, chB]]) (tagged sets.flatten) :=
  C2_unsorted_select_content ⟨0, 200, [constBlock seriesA, constBlock seriesB]⟩ none []
    [ChunkSeries.mk [("job", "x")] [chA, chB]] rfl

/-! ### Claim C3 -/

theorem mergeAux_succ (fuel : Nat) (sets : List (List ChunkSeries)) :
    mergeAux (fuel + 1) sets =
      match listMinLbl (headLsets sets) with
      | none => []
      | some m => concatMerger (popTaken m sets) :: mergeAux fuel (popRest m sets) := rfl

theorem newMerge_pair_same_lset (l : Lbls) (c1 c2 : List Chunk) :
    NewMergeChunkSeriesSet [[⟨l, c1⟩], [⟨l, c2⟩]] = [⟨l, c1 ++ c2⟩] := by
  show mergeAux (1 + 1) [[⟨l, c1⟩], [⟨l, c2⟩]] = [⟨l, c1 ++ c2⟩]
  have e2 : listMinLbl (headLsets [[⟨l, c1⟩], [⟨l, c2⟩]]) = some l := by
    show listMinLbl [l, l] = some l
    simp [listMinLbl, foldlMin]
  rw [mergeAux_succ, e2]
  show concatMerger (popTaken l [[⟨l, c1⟩], [⟨l, c2⟩]]) ::
      mergeAux 1 (popRest l [[⟨l, c1⟩], [⟨l, c2⟩]]) = [⟨l, c1 ++ c2⟩]
  have e3 : popTaken l [[⟨l, c1⟩], [⟨l, c2⟩]] = [⟨l, c1⟩, ⟨l, c2⟩] := by
    simp [popTaken]
  have e4 : popRest l [[⟨l, c1⟩], [⟨l, c2⟩]] = [[], []] := by
    simp [popRest]
  rw [e3, e4]
  show ChunkSeries.mk l (c1 ++ (c2 ++ [])) :: [] = [⟨l, c1 ++ c2⟩]
  simp

/-- C3 counterexample: the blocks supplied in reverse chronological order
(the later block first) merge into one series whose chunk sequence is the
block-order concatenation, which is not time-ordered: the chunk covering
time 100 to 200 precedes the chunk covering time 0 to 100. -/
theorem C3_counterexample :
    parquetQuerier.Select ⟨0, 200, [constBlock seriesB, constBlock seriesA]⟩ true none [] =
      .ok [ChunkSeries.mk [("job", "x")] [chB, chA]] ∧
    ([ChunkSeries.mk [("job", "x")] [chB, chA]] : List ChunkSeries) ≠
      [ChunkSeries.mk [("job", "x")] [chA, chB]] ∧
    chA.mint < chB.mint :=
  ⟨rfl, by decide, by decide⟩

/-- C3 (amended): two blocks each contributing exactly one series with the
same label set merge under a sorted Select into exactly one series whose
chunk sequence is the concatenation of the blocks' chunk sequences in block
order — no chunk duplicated, no chunk lost; it is time-ordered exactly when
the blocks are supplied in chronological order. -/
theorem C3_identical_label_sets_merge (mint maxt : Int) (ms : List Matcher)
    (b1 b2 : ParquetBlock) (s1 s2 : ChunkSeries)
    (h1 : b1.query true mint maxt ms = .ok [s1])
    (h2 : b2.query true mint maxt ms = .ok [s2])
    (hl : s1.lset = s2.lset) :
    parquetQuerier.Select ⟨mint, maxt, [b1, b2]⟩ true none ms =
      .ok [ChunkSeries.mk s1.lset (s1.chunks ++ s2.chunks)] := by
  have hq : querySets true mint maxt ms [b1, b2] = .ok [[s1], [s2]] := by
    simp only [querySets, h1, h2]
  unfold parquetQuerier.Select
  have hsel : selMinT ⟨mint, maxt, [b1, b2]⟩ none = mint := rfl
  have hsel2 : selMaxT ⟨mint, maxt, [b1, b2]⟩ none = maxt := rfl
  rw [hsel, hsel2, hq]
  show Except.ok (NewMergeChunkSeriesSet [[s1], [s2]]) =
    Except.ok [ChunkSeries.mk s1.lset (s1.chunks ++ s2.chunks)]
  obtain ⟨l1, c1⟩ := s1
  obtain ⟨l2, c2⟩ := s2
  have hl2 : l1 = l2 := hl
  subst hl2
  rw [newMerge_pair_same_lset]

/-- Witness for the amended C3: block A ahead of block B in time, supplied
in order, merge into one series carrying both chunks in time order. -/
theorem C3_identical_label_sets_merge_witness :
    parquetQuerier.Select ⟨0, 200, [constBlock seriesA, constBlock seriesB]⟩ true none [] =
      .ok [ChunkSeries.mk [("job", "x")] ([chA] ++ [chB])] :=
  C3_identical_label_sets_merge 0 200 [] (constBlock seriesA) (constBlock seriesB)
    seriesA seriesB rfl rfl rfl

/-! ### Claim C5 -/

theorem querySets_first_error (sorted : Bool) (mint maxt : Int) (ms : List Matcher) (e : Err) :
    ∀ (bs1 : List ParquetBlock) (b : ParquetBlock) (bs2 : List ParquetBlock),
      (∀ b2 ∈ bs1, ∃ r, b2.query sorted mint maxt ms = .ok r) →
      b.query sorted mint maxt ms = .error e →
      querySets sorted mint maxt ms (bs1 ++ b :: bs2) = .error e
  | [], b, bs2, _, hb => by
    simp only [List.nil_append, querySets, hb]
  | b1 :: bs1, b, bs2, hok, hb => by
    obtain ⟨r, hr⟩ := hok b1 (List.mem_cons_self _ _)
    have ih := querySets_first_error sorted mint maxt ms e bs1 b bs2
      (fun b2 hm => hok b2 (List.mem_cons_of_mem _ hm)) hb
    simp only [List.cons_append, querySets, hr, List.append_eq, ih]

theorem collectLabelNames_first_error (ms : List Matcher) (e : Err) :
    ∀ (bs1 : List ParquetBlock) (b : ParquetBlock) (bs2 : List ParquetBlock),
      (∀ b2 ∈ bs1, ∃ r, b2.labelNames ms = .ok r) →
      b.labelNames ms = .error e →
      collectLabelNames ms (bs1 ++ b :: bs2) = .error e
  | [], b, bs2, _, hb => by
    simp only [List.nil_append, collectLabelNames, hb]
  | b1 :: bs1, b, bs2, hok, hb => by
    obtain ⟨r, hr⟩ := hok b1 (List.mem_cons_self _ _)
    have ih := collectLabelNames_first_error ms e bs1 b bs2
      (fun b2 hm => hok b2 (List.mem_cons_of_mem _ hm)) hb
    simp only [List.cons_append, collectLabelNames, hr, List.append_eq, ih]

theorem collectLabelValues_first_error (name : String) (ms : List Matcher) (e : Err) :
    ∀ (bs1 : List ParquetBlock) (b : ParquetBlock) (bs2 : List ParquetBlock),
      (∀ b2 ∈ bs1, ∃ r, b2.labelValues name ms = .ok r) →
      b.labelValues name ms = .error e →
      collectLabelValues name ms (bs1 ++ b :: bs2) = .error e
  | [], b, bs2, _, hb => by
    simp only [List.nil_append, collectLabelValues, hb]
  | b1 :: bs1, b, bs2, hok, hb => by
    obtain ⟨r, hr⟩ := hok b1 (List.mem_cons_self _ _)
    have ih := collectLabelValues_first_error name ms e bs1 b bs2
      (fun b2 hm => hok b2 (List.mem_cons_of_mem _ hm)) hb
    simp only [List.cons_append, collectLabelValues, hr, List.append_eq, ih]

theorem queryGroups_first_error (m : Materializer) (cs : List Constraint)
    (mint maxt : Int) (e : Err) :
    ∀ (gs1 : List RowGroup) (i : Nat) (g : RowGroup) (gs2 : List RowGroup)
      (r1 : List ChunkSeries),
      queryGroups m cs mint maxt i gs1 = .ok r1 →
      (Filter g cs = .error e ∨
        ∃ rr, Filter g cs = .ok rr ∧ m.materialize (i + gs1.length) mint maxt rr = .error e) →
      queryGroups m cs mint maxt i (gs1 ++ g :: gs2) = .error e
  | [], i, g, gs2, r1, _, hg => by
    rcases hg with hg | ⟨rr, hrr, hmat⟩
    · simp only [List.nil_append, queryGroups, hg]
    · simp only [List.length_nil, Nat.add_zero] at hmat
      simp only [List.nil_append, queryGroups, hrr, hmat]
  | g1 :: gs1, i, g, gs2, r1, h1, hg => by
    simp only [queryGroups] at h1
    rcases hF : Filter g1 cs with e1 | rr1
    · exact absurd h1 (by simp [hF])
    · simp only [hF] at h1
      rcases hM : m.materialize i mint maxt rr1 with e1 | s1
      · exact absurd h1 (by simp [hM])
      · simp only [hM] at h1
        rcases hRest : queryGroups m cs mint maxt (i + 1) gs1 with e1 | rest
        · exact absurd h1 (by simp [hRest])
        · have harith : i + (g1 :: gs1).length = (i + 1) + gs1.length := by
            simp only [List.length_cons]
            omega
          rw [harith] at hg
          have ih := queryGroups_first_error m cs mint maxt e gs1 (i + 1) g gs2 rest hRest hg
          simp only [List.cons_append, queryGroups, hF, hM, List.append_eq, ih]

/-- C5: fail-fast at every granularity.  First conjunct: a Select whose
blocks split as `bs1 ++ b :: bs2` with every block of `bs1` succeeding and
`b` failing returns `b`'s error, whatever `bs2` holds.  Second conjunct: a
per-block query whose row groups split as `gs1 ++ g :: gs2` with `gs1`
succeeding and `g` failing at the filter or at materialization returns that
error, whatever `gs2` holds.  Third and fourth conjunct: block-level
fail-fast of LabelNames and LabelValues. -/
theorem C5_fail_fast :
    (∀ (p : parquetQuerier) (sorted : Bool) (sp : Option SelectHints) (ms : List Matcher)
      (e : Err) (bs1 : List ParquetBlock) (b : ParquetBlock) (bs2 : List ParquetBlock),
      p.blocks = bs1 ++ b :: bs2 →
      (∀ b2 ∈ bs1, ∃ r, b2.query sorted (selMinT p sp) (selMaxT p sp) ms = .ok r) →
      b.query sorted (selMinT p sp) (selMaxT p sp) ms = .error e →
      p.Select sorted sp ms = .error e) ∧
    (∀ (b : ParquetBlock) (sorted : Bool) (mint maxt : Int) (ms : List Matcher)
      (cs : List Constraint) (e : Err) (gs1 : List RowGroup) (g : RowGroup)
      (gs2 : List RowGroup) (r1 : List ChunkSeries),
      b.lf.rowGroups = gs1 ++ g :: gs2 →
      MatchersToConstraint ms = .ok cs →
      Initialize b.lf.schema cs = .ok () →
      queryGroups b.m cs mint maxt 0 gs1 = .ok r1 →
      (Filter g cs = .error e ∨
        ∃ rr, Filter g cs = .ok rr ∧ b.m.materialize gs1.length mint maxt rr = .error e) →
      b.query sorted mint maxt ms = .error e) ∧
    (∀ (p : parquetQuerier) (hints : Option LabelHints) (ms : List Matcher) (e : Err)
      (bs1 : List ParquetBlock) (b : ParquetBlock) (bs2 : List ParquetBlock),
      p.blocks = bs1 ++ b :: bs2 →
      (∀ b2 ∈ bs1, ∃ r, b2.labelNames ms = .ok r) →
      b.labelNames ms = .error e →
      p.LabelNames hints ms = .error e) ∧
    (∀ (p : parquetQuerier) (name : String) (hints : Option LabelHints) (ms : List Matcher)
      (e : Err) (bs1 : List ParquetBlock) (b : ParquetBlock) (bs2 : List ParquetBlock),
      p.blocks = bs1 ++ b :: bs2 →
      (∀ b2 ∈ bs1, ∃ r, b2.labelValues name ms = .ok r) →
      b.labelValues name ms = .error e →
      p.LabelValues name hints ms = .error e) := by
  refine ⟨?_, ?_, ?_, ?_⟩
  · intro p sorted sp ms e bs1 b bs2 hblocks hok hb
    have hq := querySets_first_error sorted (selMinT p sp) (selMaxT p sp) ms e bs1 b bs2 hok hb
    unfold parquetQuerier.Select
    simp only [hblocks, hq]
  · intro b sorted mint maxt ms cs e gs1 g gs2 r1 hgroups hcs hinit h1 hg
    have harith : gs1.length = 0 + gs1.length := by omega
    rw [harith] at hg
    have hq := queryGroups_first_error b.m cs mint maxt e gs1 0 g gs2 r1 h1 hg
    unfold ParquetBlock.query
    simp only [hcs, hinit, hgroups, hq]
  · intro p hints ms e bs1 b bs2 hblocks hok hb
    have hq := collectLabelNames_first_error ms e bs1 b bs2 hok hb
    unfold parquetQuerier.LabelNames
    simp only [hblocks, hq]
  · intro p name hints ms e bs1 b bs2 hblocks hok hb
    have hq := collectLabelValues_first_error name ms e bs1 b bs2 hok hb
    unfold parquetQuerier.LabelValues
    simp only [hblocks, hq]

/-- Witness for C5 at concrete queries: a block failing at constraint
binding aborts Select, LabelNames and LabelValues after one successful
block, and a row group failing to filter after one successful row group
aborts the per-block query. -/
theorem C5_fail_fast_witness :
    parquetQuerier.Select ⟨0, 200, [constBlock seriesA, initFailBlock]⟩ true none [] =
      .error "io error" ∧
    filterFailBlock.query true 0 200 [] = .error "filter error" ∧
    parquetQuerier.LabelNames ⟨0, 200, [constBlock seriesA, initFailBlock]⟩ none [] =
      .error "io error" ∧
    parquetQuerier.LabelValues ⟨0, 200, [constBlock seriesA, initFailBlock]⟩ "job" none [] =
      .error "io error" := by
  refine ⟨?_, ?_, ?_, ?_⟩
  · exact C5_fail_fast.1 ⟨0, 200, [constBlock seriesA, initFailBlock]⟩ true none [] "io error"
      [constBlock seriesA] initFailBlock [] rfl
      (by
        intro b2 hm
        rw [List.mem_singleton] at hm
        subst hm
        exact ⟨[seriesA], rfl⟩)
      rfl
  · exact C5_fail_fast.2.1 filterFailBlock true 0 200 [] [] "filter error" [rgAll] rgFail []
      [seriesA] rfl rfl rfl rfl (Or.inl rfl)
  · exact C5_fail_fast.2.2.1 ⟨0, 200, [constBlock seriesA, initFailBlock]⟩ none [] "io error"
      [constBlock seriesA] initFailBlock [] rfl
      (by
        intro b2 hm
        rw [List.mem_singleton] at hm
        subst hm
        exact ⟨[["job"]], rfl⟩)
      rfl
  · exact C5_fail_fast.2.2.2 ⟨0, 200, [constBlock seriesA, initFailBlock]⟩ "job" none []
      "io error" [constBlock seriesA] initFailBlock [] rfl
      (by
        intro b2 hm
        rw [List.mem_singleton] at hm
        subst hm
        exact ⟨[["x"]], rfl⟩)
      rfl

/-! ### Claim C4 -/

theorem strLt_ne {a b : String} (h : strLt a b) : a ≠ b := by
  intro hab
  subst hab
  unfold strLt at h
  rw [strCompare_eq_iff.mpr rfl] at h
  exact Ordering.noConfusion h

theorem mergeUnsortedSlices_zero (lists : List (List String)) :
    MergeUnsortedSlices 0 lists = (lists.flatten.insertionSort strLe).dedup := by
  unfold MergeUnsortedSlices
  simp

theorem mergeUnsortedSlices_limit_pos (limit : Int) (lists : List (List String))
    (h : 0 < limit) :
    MergeUnsortedSlices limit lists = (MergeUnsortedSlices 0 lists).take limit.toNat := by
  rw [mergeUnsortedSlices_zero]
  unfold MergeUnsortedSlices
  rw [if_pos h]

theorem mergeUnsortedSlices_limit_nonpos (limit : Int) (lists : List (List String))
    (h : limit ≤ 0) :
    MergeUnsortedSlices limit lists = MergeUnsortedSlices 0 lists := by
  rw [mergeUnsortedSlices_zero]
  unfold MergeUnsortedSlices
  rw [if_neg (by omega)]

theorem mergeUnsortedSlices_zero_sorted (lists : List (List String)) :
    (MergeUnsortedSlices 0 lists).Sorted strLt := by
  rw [mergeUnsortedSlices_zero]
  haveI : IsTrans String strLe := ⟨fun _ _ _ => strLe_trans⟩
  haveI : IsTotal String strLe := ⟨strLe_total⟩
  have hs : (lists.flatten.insertionSort strLe).Sorted strLe :=
    List.sorted_insertionSort _ _
  have hsub : List.Sublist (lists.flatten.insertionSort strLe).dedup
      (lists.flatten.insertionSort strLe) := List.dedup_sublist _
  have hs2 : ((lists.flatten.insertionSort strLe).dedup).Sorted strLe := hs.sublist hsub
  have hn : ((lists.flatten.insertionSort strLe).dedup).Nodup := List.nodup_dedup _
  exact List.Pairwise.imp₂ (fun _ _ hle hne => strLt_of_strLe_of_ne hle hne) hs2 hn

theorem mergeUnsortedSlices_sorted (limit : Int) (lists : List (List String)) :
    (MergeUnsortedSlices limit lists).Sorted strLt := by
  rcases le_or_lt limit 0 with h | h
  · rw [mergeUnsortedSlices_limit_nonpos limit lists h]
    exact mergeUnsortedSlices_zero_sorted lists
  · rw [mergeUnsortedSlices_limit_pos limit lists h]
    exact (mergeUnsortedSlices_zero_sorted lists).sublist (List.take_sublist _ _)

/-- C4: LabelValues and LabelNames return ascending, duplicate-free lists;
limit 0 returns the whole deduplicated result and a positive limit K returns
its first K entries — the lexicographically smallest K, since the full list
is sorted. -/
theorem C4_label_lists_sorted_dedup_limited (p : parquetQuerier) (name : String)
    (h : LabelHints) (ms : List Matcher) :
    (∀ out, p.LabelValues name (some h) ms = .ok out →
      out.Sorted strLt ∧ out.Nodup ∧
      ∃ full, p.LabelValues name none ms = .ok full ∧ full.Sorted strLt ∧
        (h.limit ≤ 0 → out = full) ∧
        (0 < h.limit → out = full.take h.limit.toNat)) ∧
    (∀ out, p.LabelNames (some h) ms = .ok out →
      out.Sorted strLt ∧ out.Nodup ∧
      ∃ full, p.LabelNames none ms = .ok full ∧ full.Sorted strLt ∧
        (h.limit ≤ 0 → out = full) ∧
        (0 < h.limit → out = full.take h.limit.toNat)) := by
  constructor
  · intro out hout
    unfold parquetQuerier.LabelValues at hout ⊢
    rcases hcol : collectLabelValues name ms p.blocks with e | lists
    · rw [hcol] at hout
      exact Except.noConfusion hout
    · rw [hcol] at hout
      have hout2 : MergeUnsortedSlices (labelLimit (some h)) lists = out :=
        (Except.ok.injEq _ _).mp hout
      have hsorted : out.Sorted strLt := by
        rw [← hout2]
        exact mergeUnsortedSlices_sorted _ lists
      refine ⟨hsorted, List.Pairwise.imp (fun hlt => strLt_ne hlt) hsorted,
        MergeUnsortedSlices 0 lists, rfl, mergeUnsortedSlices_zero_sorted lists, ?_, ?_⟩
      · intro hle
        rw [← hout2]
        exact mergeUnsortedSlices_limit_nonpos _ lists hle
      · intro hpos
        rw [← hout2]
        exact mergeUnsortedSlices_limit_pos _ lists hpos
  · intro out hout
    unfold parquetQuerier.LabelNames at hout ⊢
    rcases hcol : collectLabelNames ms p.blocks with e | lists
    · rw [hcol] at hout
      exact Except.noConfusion hout
    · rw [hcol] at hout
      have hout2 : MergeUnsortedSlices (labelLimit (some h)) lists = out :=
        (Except.ok.injEq _ _).mp hout
      have hsorted : out.Sorted strLt := by
        rw [← hout2]
        exact mergeUnsortedSlices_sorted _ lists
      refine ⟨hsorted, List.Pairwise.imp (fun hlt => strLt_ne hlt) hsorted,
        MergeUnsortedSlices 0 lists, rfl, mergeUnsortedSlices_zero_sorted lists, ?_, ?_⟩
      · intro hle
        rw [← hout2]
        exact mergeUnsortedSlices_limit_nonpos _ lists hle
      · intro hpos
        rw [← hout2]
        exact mergeUnsortedSlices_limit_pos _ lists hpos

/-- Witness for C4 at a concrete querier: two blocks both contributing the
value "x" and the name "job"; the limited results deduplicate to one entry. -/
theorem C4_label_lists_sorted_dedup_limited_witness :
    ((["x"] : List String).Sorted strLt ∧ (["x"] : List String).Nodup ∧
      ∃ full, parquetQuerier.LabelValues ⟨0, 200, [constBlock seriesA, constBlock seriesB]⟩
          "job" none [] = .ok full ∧ full.Sorted strLt ∧
        ((1 : Int) ≤ 0 → ["x"] = full) ∧
        ((0 : Int) < 1 → ["x"] = full.take (1 : Int).toNat)) ∧
    ((["job"] : List String).Sorted strLt ∧ (["job"] : List String).Nodup ∧
      ∃ full, parquetQuerier.LabelNames ⟨0, 200, [constBlock seriesA, constBlock seriesB]⟩
          none [] = .ok full ∧ full.Sorted strLt ∧
        ((1 : Int) ≤ 0 → ["job"] = full) ∧
        ((0 : Int) < 1 → ["job"] = full.take (1 : Int).toNat)) :=
  ⟨(C4_label_lists_sorted_dedup_limited
      ⟨0, 200, [constBlock seriesA, constBlock seriesB]⟩ "job" ⟨1⟩ []).1 ["x"] rfl,
   (C4_label_lists_sorted_dedup_limited
      ⟨0, 200, [constBlock seriesA, constBlock seriesB]⟩ "job" ⟨1⟩ []).2 ["job"] rfl⟩

/-! ### Claim C7 -/

/-- C7: NewParquetBlock fails exactly when schema derivation or materializer
construction fails, and on success returns the block holding the given files
and the materializer built over the derived schema. -/
theorem C7_new_parquet_block (env : BlockEnv) (lf cf : ParquetFile) (d : ChunksDecoder) :
    (∀ b, NewParquetBlock env lf cf d = .ok b →
      ∃ s m, env.fromLabelsFile lf = .ok s ∧ env.newMaterializer s d lf cf = .ok m ∧
        b.lf = lf ∧ b.cf = cf ∧ b.m = m) ∧
    ((∃ e, NewParquetBlock env lf cf d = .error e) ↔
      ((∃ e, env.fromLabelsFile lf = .error e) ∨
       (∃ s, env.fromLabelsFile lf = .ok s ∧
         ∃ e, env.newMaterializer s d lf cf = .error e))) := by
  rcases h1 : env.fromLabelsFile lf with e1 | s
  · refine ⟨?_, ?_⟩
    · intro b hb
      simp only [NewParquetBlock, h1] at hb
      exact absurd hb (by simp)
    · simp only [NewParquetBlock, h1]
      simp [h1]
  · rcases h2 : env.newMaterializer s d lf cf with e2 | m
    · refine ⟨?_, ?_⟩
      · intro b hb
        simp only [NewParquetBlock, h1, h2] at hb
        exact absurd hb (by simp)
      · simp only [NewParquetBlock, h1, h2]
        simp [h1, h2]
    · refine ⟨?_, ?_⟩
      · intro b hb
        simp only [NewParquetBlock, h1, h2] at hb
        have hbm : ParquetBlock.mk lf cf m = b := (Except.ok.injEq _ _).mp hb
        subst hbm
        exact ⟨s, m, rfl, h2, rfl, rfl, rfl⟩
      · simp only [NewParquetBlock, h1, h2]
        simp [h1, h2]

/-- Witness for C7 at a concrete environment whose derivation and
materializer construction both succeed. -/
theorem C7_new_parquet_block_witness :
    ∃ s m,
      (BlockEnv.mk (fun _ => .ok ⟨0⟩) (fun _ _ _ _ => .ok trivMaterializer)).fromLabelsFile
          emptyFile = .ok s ∧
      (BlockEnv.mk (fun _ => .ok ⟨0⟩)
          (fun _ _ _ _ => .ok trivMaterializer)).newMaterializer s ⟨0⟩ emptyFile emptyFile = .ok m ∧
      (ParquetBlock.mk emptyFile emptyFile trivMaterializer).lf = emptyFile ∧
      (ParquetBlock.mk emptyFile emptyFile trivMaterializer).cf = emptyFile ∧
      (ParquetBlock.mk emptyFile emptyFile trivMaterializer).m = m :=
  (C7_new_parquet_block (BlockEnv.mk (fun _ => .ok ⟨0⟩) (fun _ _ _ _ => .ok trivMaterializer))
    emptyFile emptyFile ⟨0⟩).1 ⟨emptyFile, emptyFile, trivMaterializer⟩ rfl

end ParquetCommon
